import Mathlib

/-!
Verification development for the BAML markup-language core: a shallow
embedding, in Lean, of the escape-aware scanner, the bracket containerizer,
the splitter utilities, the document parser pipeline (`preprocess`,
`desugar_slfcalls`, `parse_step1`/`parse_step2`, `parse_command`,
`parse_attrs`, `parse`) and the template-engine helpers
(`matches_pattern`, the `%forfiles` skip condition, `basic_command`
argument parsing and replacement, `var` substitution), together with
theorems checking the specification's claims against this embedding.

Modelling conventions:
* Rust `String`/`&str` values are modelled as `List Char`; byte indices of
  the source coincide with character indices on the ASCII inputs used here.
* Rust panics (`unwrap`, `expect`, `panic!`, out-of-bounds
  `replace_range`/slicing) are modelled as explicit error values of an
  `Except`, so that the embedding is total; each such error value is named
  after the panic it stands for.
* Rust `while` loops and the recursion of `parse_step2` are modelled with
  an explicit fuel parameter (an embedding artifact, chosen large enough
  that it is never exhausted on the inputs of interest); running out of
  fuel is a distinguished error value.
* `HashMap<String, String>` is modelled as an association list with
  insert-replaces-existing-key semantics.
-/

/-! ## Iterator tools (src/parser_util.rs, `AutoEscape` and friends) -/

/-- `AutoEscape` (src/parser_util.rs): pairs each escape-indicator item with
the following item as `(true, next)`; an indicator that is the last item of
the input is emitted as `(false, indicator)`. -/
def autoEscape {α : Type} (p : α → Bool) : List α → List (Bool × α)
  | [] => []
  | [x] => [(false, x)]
  | x :: y :: ys =>
    if p x then (true, y) :: autoEscape p ys
    else (false, x) :: autoEscape p (y :: ys)

/-- `reverse_auto_escape`: turns an escape-flagged char back into literal
characters, re-inserting the backslash for escaped ones. -/
def reverseAutoEscape (p : Bool × Char) : List Char :=
  if p.1 then ['\\', p.2] else [p.2]

/-- `Containerized<T>` (src/parser_util.rs). -/
inductive Containerized (α : Type) where
  | Free : α → Containerized α
  | Contained : List (Containerized α) → Containerized α

/-- `Containerized::join`: a `Free` run stays a singleton; a `Contained`
run is wrapped in the given left/right delimiter values, its children
joined and concatenated in between. -/
def Containerized.join {α : Type} : Containerized α → α → α → List α
  | .Free t, _, _ => [t]
  | .Contained v, lf, rt =>
    [lf] ++ (v.attach.map (fun c => c.1.join lf rt)).flatten ++ [rt]
decreasing_by
  have := List.sizeOf_lt_of_mem c.2
  simp only [Containerized.Contained.sizeOf_spec]
  omega

/-- `Containerized::map` specialised to the parser's use, with an explicit
recursion-depth fuel (embedding artifact; the fuel is always chosen at
least the tree depth, so the `0`/`Contained` fallback is never reached). -/
def Containerized.mapF {α β : Type} (f : α → β) : Nat → Containerized α → Containerized β
  | _, .Free t => .Free (f t)
  | 0, .Contained _ => .Contained []
  | fuel + 1, .Contained v => .Contained (v.map (Containerized.mapF f fuel))

/-- The free-item branch of `containerize`: append the item to a trailing
`Free` run of the frame, or start a new `Free` run. -/
def pushFree {α : Type} : List (Containerized (List α)) → α → List (Containerized (List α))
  | [], t => [.Free [t]]
  | [c], t =>
    match c with
    | .Free v => [.Free (v ++ [t])]
    | .Contained w => [.Contained w, .Free [t]]
  | c :: r :: rs, t => c :: pushFree (r :: rs) t

/-- The two panics of `containerize`: `expect("Unmatched right delimeter")`
and `panic!("Unmatched left delimeter")`. -/
inductive ContainerizePanic where
  | unmatchedRight
  | unmatchedLeft
  deriving DecidableEq

/-- The loop of `containerize`, with the never-empty stack of frames split
into its top frame and the remaining frames. -/
def contRun {α : Type} (lf rt : α → Bool) :
    List α → List (Containerized (List α)) → List (List (Containerized (List α))) →
    Except ContainerizePanic (List (Containerized (List α)))
  | [], top, rest => if rest.isEmpty then .ok top else .error .unmatchedLeft
  | t :: l, top, rest =>
    if lf t then contRun lf rt l [] (top :: rest)
    else if rt t then
      match rest with
      | [] => .error .unmatchedRight
      | f :: rest' => contRun lf rt l (f ++ [.Contained top]) rest'
    else contRun lf rt l (pushFree top t) rest

/-- `containerize` (src/parser_util.rs): stack-based bracket grouping; the
source's two panics on unmatched delimiters are modelled as error values. -/
def containerize {α : Type} (lf rt : α → Bool) (l : List α) :
    Except ContainerizePanic (List (Containerized (List α))) :=
  contRun lf rt l [] []

/-- The loop of `SplitIter` (`IterSplit::split` with no `max_len`), with
fuel (an embedding artifact; each iteration consumes at least one item, so
`input.length` fuel always suffices). -/
def splitGo {α : Type} (p : α → Bool) (keep : Bool) : Nat → List α → List (List α)
  | _, [] => []
  | 0, _ => []
  | fuel + 1, l =>
    let piece := l.takeWhile (fun x => !p x)
    match l.dropWhile (fun x => !p x) with
    | [] => [piece]
    | sep :: rest =>
      if keep then piece :: [sep] :: splitGo p keep fuel rest
      else piece :: splitGo p keep fuel rest

/-- `IterSplit::split(is_sep, keep_sep)`: empty input yields no pieces; a
trailing separator yields no trailing empty piece; with `keep` the
separator is emitted as its own singleton piece. -/
def splitList {α : Type} (p : α → Bool) (keep : Bool) (l : List α) : List (List α) :=
  splitGo p keep l.length l

/-- `IterSplit::splitn(2, is_sep, false)`: at most one cut, at the first
separator; the remainder is collected verbatim, and a separator that ends
the input yields no second piece. -/
def splitn2P {α : Type} (p : α → Bool) (l : List α) : List (List α) :=
  match l with
  | [] => []
  | _ =>
    match l.dropWhile (fun x => !p x) with
    | [] => [l.takeWhile (fun x => !p x)]
    | _ :: rest =>
      if rest.isEmpty then [l.takeWhile (fun x => !p x)]
      else [l.takeWhile (fun x => !p x), rest]

/-- Rust `str::splitn(2, pat)`: the part before the first matching char,
and — when a match exists — everything after it (possibly empty). -/
def splitFirstP (p : Char → Bool) (l : List Char) : List Char × Option (List Char) :=
  (l.takeWhile (fun c => !p c),
    match l.dropWhile (fun c => !p c) with
    | [] => none
    | _ :: rest => some rest)

/-- `TakeWhileLevelGe0` with `emit_final = false`: count nesting level via
`inc`/`dec`, stop (dropping the final closer) at a `dec` item on level 0. -/
def takeWhileLvlGe0 {β : Type} (inc dec : β → Bool) : Nat → List β → List β
  | _, [] => []
  | lvl, x :: xs =>
    if inc x then x :: takeWhileLvlGe0 inc dec (lvl + 1) xs
    else if dec x then
      if lvl = 0 then [] else x :: takeWhileLvlGe0 inc dec (lvl - 1) xs
    else x :: takeWhileLvlGe0 inc dec lvl xs

/-- `str_split_keep_sep` (src/parser_util.rs): character-level split that
keeps each separator as its own singleton piece. -/
def strSplitKeepSep (p : Char → Bool) (s : List Char) : List (List Char) :=
  splitList p true s

/-- Rust `str::find(&str)`: index of the first occurrence of a substring. -/
def substrFind (pat : List Char) : List Char → Option Nat
  | [] => if pat.isEmpty then some 0 else none
  | x :: rest =>
    if pat.isPrefixOf (x :: rest) then some 0
    else (substrFind pat rest).map (· + 1)

/-- Rust `str::trim_start`. -/
def trimStartL (l : List Char) : List Char := l.dropWhile Char.isWhitespace

/-- Rust `str::trim`. -/
def trimBoth (l : List Char) : List Char :=
  ((l.dropWhile Char.isWhitespace).reverse.dropWhile Char.isWhitespace).reverse

/-- `HashMap::get` on the association-list model. -/
def lookupAssoc {α β : Type} [BEq α] (m : List (α × β)) (k : α) : Option β :=
  (m.find? (fun p => p.1 == k)).map (·.2)

/-- `HashMap::insert` on the association-list model: replaces the value of
an existing key, appends a new key. -/
def insertAssoc {α β : Type} [BEq α] (k : α) (v : β) : List (α × β) → List (α × β)
  | [] => [(k, v)]
  | (k', v') :: rest =>
    if k' == k then (k, v) :: rest else (k', v') :: insertAssoc k v rest

/-- Rust `str::split(sep)`: one more piece than separators, in order. -/
def splitOnChar (sep : Char) : List Char → List (List Char)
  | [] => [[]]
  | x :: xs =>
    match splitOnChar sep xs with
    | [] => [[]]
    | r :: rs => if x = sep then [] :: r :: rs else (x :: r) :: rs

/-- `s.replace("\\\n", "")`: delete every backslash-newline pair, scanning
left to right. -/
def removeEscapedLf : List Char → List Char
  | [] => []
  | ['\\'] => ['\\']
  | '\\' :: '\n' :: rest => removeEscapedLf rest
  | c :: rest => c :: removeEscapedLf rest

/-- `s.replace("\\ ", "")`: delete every backslash-space pair, scanning
left to right. -/
def removeEscSpace : List Char → List Char
  | [] => []
  | ['\\'] => ['\\']
  | '\\' :: ' ' :: rest => removeEscSpace rest
  | c :: rest => c :: removeEscSpace rest

/-! ## Document parser (src/baml_core/src/parser.rs) -/

/-- The outcomes that abort `parse`: the two typed `ParseCommandErr`
variants of the source, plus the panics of the pipeline (modelled as error
values) and the fuel artifact of the embedding. -/
inductive ParseAbort where
  | emptyBody
  | commandIsNotIdentifier
  | panicMetadataNoValue
  | panicUnmatchedRightDelimiter
  | panicUnmatchedLeftDelimiter
  | panicUnwrapNone
  | fuelExhausted
  deriving DecidableEq

mutual
/-- `ASTNode`: literal text or a command call. -/
inductive ASTNode where
  | Text : List Char → ASTNode
  | CommandCall : CommandT → ASTNode

/-- `Command`: backend qualifier, command name, attributes, arguments. -/
inductive CommandT where
  | mk : Option (List Char) → List Char → List (List Char × List Char) →
      List ASTNode → CommandT
end

/-- `AST`: metadata mapping plus the node list. -/
structure AST where
  metadata : List (List Char × List Char)
  nodes : List ASTNode

/-- The metadata branch of `preprocess` for one `!`-line: key between `!`
and the first whitespace, value from the first non-whitespace after that;
either `expect("Found Metadata without value")` is modelled as an error. -/
def metaLine (line : List Char) : Except ParseAbort (List Char × List Char) :=
  match line.enum.find? (fun p => p.2.isWhitespace) with
  | none => .error .panicMetadataNoValue
  | some (i, _) =>
    match line.enum.find? (fun p => decide (i < p.1) && !p.2.isWhitespace) with
    | none => .error .panicMetadataNoValue
    | some (i1, _) => .ok ((line.take i).drop 1, line.drop i1)

/-- The comment branch of `preprocess`: keep the `'#'`-separated segments
while each boundary's preceding segment ends with a backslash, and
concatenate the kept segments (the `#` characters themselves are gone). -/
def commentStrip : Bool → List (List Char) → List Char
  | _, [] => []
  | flag, piece :: rest =>
    if flag then piece ++ commentStrip (piece.getLast? == some '\\') rest else []

/-- The line loop of `preprocess`, with the metadata map and the kept body
lines (accumulated in reverse) threaded through. -/
def preprocessLoop (meta : List (List Char × List Char)) (res : List (List Char)) :
    List (List Char) → Except ParseAbort (List (List Char × List Char) × List (List Char))
  | [] => .ok (meta, res.reverse)
  | line :: rest =>
    if line.head? = some '!' then do
      let (k, v) ← metaLine line
      preprocessLoop (insertAssoc k v meta) res rest
    else if line.contains '#' then
      let kept := commentStrip true (splitOnChar '#' line)
      if kept.isEmpty then preprocessLoop meta res rest
      else preprocessLoop meta (kept :: res) rest
    else preprocessLoop meta (line :: res) rest

/-- `preprocess`: delete escaped line feeds, then extract metadata lines
and strip comments line by line, rejoining the body with `\n`. -/
def preprocess (s : List Char) : Except ParseAbort (List (List Char × List Char) × List Char) := do
  let (meta, res) ← preprocessLoop [] [] (splitOnChar '\n' (removeEscapedLf s))
  .ok (meta, (res.intersperse ['\n']).flatten)

/-- `desugar_slfcalls`: wrap each line starting with `.` in brackets. -/
def desugarSlfcalls (s : List Char) : List Char :=
  (((splitOnChar '\n' s).map
    (fun line => if line.head? = some '.' then '[' :: (line.drop 1 ++ [']']) else line)).intersperse
      ['\n']).flatten

/-- `parse_step1`: containerize the escape-scanned characters on unescaped
`[`/`]`, then turn each free run back into literal characters. The map
fuel is an embedding artifact, at least the tree depth. -/
def parseStep1 (s : List Char) : Except ParseAbort (List (Containerized (List Char))) :=
  let pairs := autoEscape (· == '\\') s
  match containerize (fun p => !p.1 && p.2 == '[') (fun p => !p.1 && p.2 == ']') pairs with
  | .error .unmatchedRight => .error .panicUnmatchedRightDelimiter
  | .error .unmatchedLeft => .error .panicUnmatchedLeftDelimiter
  | .ok v => .ok (v.map (Containerized.mapF (fun run => run.flatMap reverseAutoEscape) (pairs.length + 1)))

/-- `split_not_escaped(sep, '\\', false)` from `tlib` (the commented-out
`split_unescaped_string(s, sep, None, false, false)` of the source):
escape-aware split that drops the escaping backslashes. -/
def splitNotEscaped (sep : Char) (s : List Char) : List (List Char) :=
  (splitList (fun p => !p.1 && p.2 == sep) false (autoEscape (· == '\\') s)).map
    (fun piece => piece.map (·.2))

/-- `parse_attrs`: split the attribute text on unescaped `;`, drop entries
without `=`, cut each kept entry at its first `=` (via the source's
`split_off`/`pop` sequence), trim the key on both sides and the value at
the start only. -/
def parseAttrs (s : List Char) : List (List Char × List Char) :=
  (splitNotEscaped ';' s).filterMap (fun sl =>
    if sl.contains '=' then
      let i := sl.findIdx (· == '=')
      let r := if i + 1 = sl.length then [] else sl.drop (i + 1)
      let key := (sl.take (i + 1)).dropLast
      some (trimBoth key, trimStartL r)
    else none)

/-- The backend split of `parse_command` (parser.rs lines 192-194):
`splitn(2, '@')` on the command head, the last piece is the command name,
the piece before the cut (if any) is the backend id. -/
def cmdBackendSplit (head : List Char) : Option (List Char) × List Char :=
  match splitFirstP (· == '@') head with
  | (a, some b) => (some a, b)
  | (a, none) => (none, a)

/-- The inner character scan of the attribute-block loop of
`parse_command`: track `{`/`}` depth (an `i32` in the source); on a `}` at
depth 1 stop, returning the consumed part and the characters after the
`}`. -/
def attrScan : List Char → Int → (List Char × Int) ⊕ (List Char × List Char)
  | [], lvl => .inl ([], lvl)
  | c :: rest, lvl =>
    if c = '{' then
      match attrScan rest (lvl + 1) with
      | .inl (acc, lvl') => .inl (c :: acc, lvl')
      | .inr (acc, rt) => .inr (c :: acc, rt)
    else if c = '}' then
      if lvl = 1 then .inr ([], rest)
      else
        match attrScan rest (lvl - 1) with
        | .inl (acc, lvl') => .inl (c :: acc, lvl')
        | .inr (acc, rt) => .inr (c :: acc, rt)
    else
      match attrScan rest lvl with
      | .inl (acc, lvl') => .inl (c :: acc, lvl')
      | .inr (acc, rt) => .inr (c :: acc, rt)

/-- The attribute-block item loop of `parse_command`: accumulate item text
(bracketed sub-expressions re-joined with literal `[`/`]`) until the scan
reports the closing `}`; returns the accumulated attribute text, the text
after the `}` (`put_before`), and the unconsumed items. -/
def attrLoop : List (Containerized (List Char)) → Int → List Char →
    (List Char × Option (List Char) × List (Containerized (List Char)))
  | [], _, acc => (acc, none, [])
  | .Free s :: rest, lvl, acc =>
    match attrScan s lvl with
    | .inl (scanned, lvl') => attrLoop rest lvl' (acc ++ scanned)
    | .inr (kept, right) => (acc ++ kept, some right, rest)
  | .Contained v :: rest, lvl, acc =>
    attrLoop rest lvl (acc ++ ((Containerized.Contained v).join ['['] [']']).flatten)

/-- The pure part of `parse_command`, before the deferred closure: command
head extraction, backend split, attribute block, argument splitting. -/
structure PendingCommand where
  backend : Option (List Char)
  cmd : List Char
  attrs : List (List Char × List Char)
  segs : List (List (Containerized (List Char)))

/-- `parse_command`, stage 1 (everything before the returned closure).
The `spl.next().unwrap()` on the head split is modelled as
`panicUnwrapNone` when the split yields no piece. -/
def parseCommandStage1 (v : List (Containerized (List Char))) :
    Except ParseAbort PendingCommand := do
  match v with
  | [] => .error .emptyBody
  | .Contained _ :: _ => .error .commandIsNotIdentifier
  | .Free first :: v1 =>
    -- split the first free run at the first unescaped `{` (at most 2 pieces)
    let spl := (splitn2P (fun p => !p.1 && p.2 == '{') (autoEscape (· == '\\') first)).map
      (fun piece => piece.map (·.2))
    match spl with
    | [] => .error .panicUnwrapNone
    | cmdRaw1 :: splRest =>
      let v2 := match splRest.head? with
        | some rest1 => Containerized.Free ['{'] :: Containerized.Free rest1 :: v1
        | none => v1
      -- split the head at the first whitespace
      let (cmdRaw2, wsRest) := splitFirstP Char.isWhitespace cmdRaw1
      let v3 := match wsRest with
        | some rest2 => Containerized.Free rest2 :: v2
        | none => v2
      let (backend, cmd) := cmdBackendSplit cmdRaw2
      -- attribute block
      let (attrs, v4) := match v3 with
        | .Free s :: _ =>
          if s = ['{'] then
            let (attrString, putBefore, rest) := attrLoop v3 0 []
            (parseAttrs (attrString.drop 1),
              (putBefore.toList.map Containerized.Free) ++ rest)
          else ([], v3)
        | _ => ([], v3)
      -- argument split on free-text `;` items
      let spl2 := (v4.flatMap (fun c => match c with
          | .Free s => (strSplitKeepSep (· == ';') s).map Containerized.Free
          | c => [c]))
      let segs := splitList (fun c => match c with
          | Containerized.Free s => s == [';']
          | _ => false) false spl2
      .ok ⟨backend, cmd, attrs, segs⟩

/-- The per-segment adjustment inside the deferred closure of
`parse_command`: left-trim the first free run and delete `\ ` pairs. -/
def adjustSeg : List (Containerized (List Char)) → List (Containerized (List Char))
  | .Free s :: rest => .Free (removeEscSpace (trimStartL s)) :: rest
  | seg => seg

/-- `parse_step2`: free runs become `Text` nodes; a contained run goes
through `parse_command` whose deferred closure — applied, as in the
source, to `parse_step2` itself — parses each adjusted argument segment
recursively and flattens the results. Every recursive call burns one unit
of fuel (embedding artifact; `parse` passes fuel that is never exhausted
on the inputs considered here). -/
def parseStep2 : Nat → List (Containerized (List Char)) → Except ParseAbort (List ASTNode)
  | 0, _ => .error .fuelExhausted
  | _ + 1, [] => .ok []
  | fuel + 1, .Free s :: rest => do
    let tl ← parseStep2 fuel rest
    .ok (.Text s :: tl)
  | fuel + 1, .Contained w :: rest => do
    let st ← parseCommandStage1 w
    let argLists ← st.segs.mapM (fun seg => parseStep2 fuel (adjustSeg seg))
    let tl ← parseStep2 fuel rest
    .ok (.CommandCall (.mk st.backend st.cmd st.attrs argLists.flatten) :: tl)

/-- `parse`: preprocess, desugar, containerize, build the node tree. -/
def parse (s : List Char) : Except ParseAbort AST := do
  let (meta, cont) ← preprocess s
  let desugared := desugarSlfcalls cont
  let frames ← parseStep1 desugared
  let nodes ← parseStep2 (2 * s.length + 4) frames
  .ok ⟨meta, nodes⟩

/-! ## Template engine (src/baml_core/src/template.rs) -/

/-- Abnormal outcomes of the template-engine loops: the panics of the
source (modelled as error values) and the fuel/no-progress artifacts. -/
inductive TemplAbort where
  | panicSliceOOB
  | panicReplaceRangeOOB
  | loopNoProgress
  | fuelExhausted
  deriving DecidableEq

/-- The loop of `shell::matches_pattern`, walking the pattern items (with
their is-first flags) while consuming the candidate string. -/
def mpLoop : List Char → List (Bool × Char) → Bool → Bool
  | s, [], lastStar => lastStar || s.isEmpty
  | s, (first, c) :: rest, _ =>
    if c = '*' then mpLoop s rest true
    else
      match s.findIdx? (· == c) with
      | some i => if first && i ≠ 0 then false else mpLoop (s.drop (i + 1)) rest false
      | none => false

/-- `shell::matches_pattern`: `*`-wildcard matching, anchored at the start
when the pattern begins with a non-`*`. -/
def matchesPattern (s pat : List Char) : Bool :=
  mpLoop s (pat.enum.map (fun p => (p.1 == 0, p.2))) false

/-- The `%forfiles` name-filtering condition of `TemplateEngine::process`
(template.rs lines 104-116): the directory entry is skipped (`continue`)
when this is `true`. -/
def forfilesSkip (excludeByName includeByName : List (List Char)) (filename : List Char) : Bool :=
  excludeByName.any (fun pat => matchesPattern filename pat)
    || includeByName.all (fun pat => !matchesPattern filename pat)

/-- `basic_command::parse_args`: skip one character (the `(`; the source
slices `s[1..]`, which panics on an empty string), then take the
escape-scanned characters up to the matching unescaped `)` counting nested
parentheses, and restore the escapes. -/
def parseArgsT (tmp : List Char) : Except TemplAbort (List Char) :=
  match tmp with
  | [] => .error .panicSliceOOB
  | _ :: rest =>
    .ok ((takeWhileLvlGe0 (fun p => !p.1 && p.2 == '(') (fun p => !p.1 && p.2 == ')') 0
      (autoEscape (· == '\\') rest)).flatMap reverseAutoEscape)

/-- `basic_command::replace_all`: repeatedly find the macro name, parse its
arguments, run `process`, and `replace_range` the invocation with the
result (an empty string when `process` failed). The `replace_range` call
panics when the computed end index exceeds the string length, which
happens exactly when `parse_args` ran off the end without finding the
closing `)`. -/
def basicReplaceAll (cmd : List Char) (proc : List Char → Except (List Char) (List Char)) :
    Nat → List Char → Except TemplAbort (List Char)
  | 0, _ => .error .fuelExhausted
  | fuel + 1, s =>
    match substrFind cmd s with
    | none => .ok s
    | some i => do
      let args ← parseArgsT (s.drop (i + cmd.length))
      let e := i + cmd.length + args.length + 2
      let r := (proc args).toOption.getD []
      if e ≤ s.length then basicReplaceAll cmd proc fuel (s.take i ++ r ++ s.drop e)
      else .error .panicReplaceRangeOOB

/-- `var::replace_all`: repeatedly find `%{`, read the brace-balanced,
escape-aware variable name, look it up (the empty string when unknown),
splice the value in place of the whole `%{...}` reference, and rescan the
resulting text from the start. A `%{` at the very end of the text makes
the source loop forever (`continue` refinds it); a missing `}` makes
`replace_range` panic. -/
def varReplaceAll (vars : List (List Char × List Char)) :
    Nat → List Char → Except TemplAbort (List Char)
  | 0, _ => .error .fuelExhausted
  | fuel + 1, s =>
    match substrFind ['%', '{'] s with
    | none => .ok s
    | some i =>
      if i + 2 = s.length then .error .loopNoProgress
      else
        let pairs := autoEscape (· == '\\') (s.drop (i + 2))
        let arg := (takeWhileLvlGe0 (fun p => !p.1 && p.2 == '{') (fun p => !p.1 && p.2 == '}') 0
          pairs).flatMap reverseAutoEscape
        let e := i + arg.length + 3
        let res := (lookupAssoc vars arg).getD []
        if e ≤ s.length then varReplaceAll vars fuel (s.take i ++ res ++ s.drop e)
        else .error .panicReplaceRangeOOB

/-! ## Balance bookkeeping for the containerizer round trip -/

/-- Number of items the containerizer treats as opening delimiters. -/
def opensCount {α : Type} (lf : α → Bool) (l : List α) : Nat := l.countP lf

/-- Number of items the containerizer treats as closing delimiters (its
`else if` gives precedence to the opening predicate). -/
def closesCount {α : Type} (lf rt : α → Bool) (l : List α) : Nat :=
  l.countP (fun t => !lf t && rt t)

/-- Rejoin every tree of a frame with the given bracket items and
concatenate, yielding back an item sequence. -/
def frameFlat {α : Type} (lbr rbr : α) (f : List (Containerized (List α))) : List α :=
  (f.map (fun c => (c.join [lbr] [rbr]).flatten)).flatten

/-- The input prefix a containerizer stack stands for: frames from the
bottom up, each non-bottom frame preceded by the opening bracket that
created it. -/
def reconstruct {α : Type} (lbr rbr : α) :
    List (Containerized (List α)) → List (List (Containerized (List α))) → List α
  | top, [] => frameFlat lbr rbr top
  | top, f :: rest => reconstruct lbr rbr f rest ++ lbr :: frameFlat lbr rbr top

/-! ## Helper lemmas -/

theorem Containerized.join_free {α : Type} (t lf rt : α) :
    (Containerized.Free t).join lf rt = [t] := by
  simp [Containerized.join]

theorem Containerized.join_contained {α : Type} (v : List (Containerized α)) (lf rt : α) :
    (Containerized.Contained v).join lf rt
      = [lf] ++ (v.map (fun c => c.join lf rt)).flatten ++ [rt] := by
  rw [Containerized.join]
  simp [List.attach_map_coe]

theorem flatten_flatten_eq {α : Type} (M : List (List (List α))) :
    M.flatten.flatten = (M.map List.flatten).flatten := by
  induction M with
  | nil => rfl
  | cons x xs ih => simp [List.flatten_append, ih]

theorem jflat_contained {α : Type} (lbr rbr : α) (v : List (Containerized (List α))) :
    ((Containerized.Contained v).join [lbr] [rbr]).flatten
      = lbr :: (frameFlat lbr rbr v ++ [rbr]) := by
  rw [Containerized.join_contained]
  simp [frameFlat, List.flatten_append, flatten_flatten_eq, List.map_map, Function.comp_def]

theorem frameFlat_append {α : Type} (lbr rbr : α) (f g : List (Containerized (List α))) :
    frameFlat lbr rbr (f ++ g) = frameFlat lbr rbr f ++ frameFlat lbr rbr g := by
  simp [frameFlat]

theorem frameFlat_pushFree {α : Type} (lbr rbr : α) (f : List (Containerized (List α))) (t : α) :
    frameFlat lbr rbr (pushFree f t) = frameFlat lbr rbr f ++ [t] := by
  induction f with
  | nil => simp [pushFree, frameFlat, Containerized.join_free]
  | cons c rest ih =>
    cases rest with
    | nil =>
      cases c with
      | Free v => simp [pushFree, frameFlat, Containerized.join_free]
      | Contained w => simp [pushFree, frameFlat, Containerized.join_free]
    | cons r rs =>
      have h1 : pushFree (c :: r :: rs) t = c :: pushFree (r :: rs) t := rfl
      rw [h1]
      have h2 : frameFlat lbr rbr (c :: pushFree (r :: rs) t)
          = ((c.join [lbr] [rbr]).flatten) ++ frameFlat lbr rbr (pushFree (r :: rs) t) := by
        simp [frameFlat]
      rw [h2, ih]
      simp [frameFlat]

theorem reconstruct_append_contained {α : Type} (lbr rbr : α)
    (f top : List (Containerized (List α))) (rest : List (List (Containerized (List α)))) :
    reconstruct lbr rbr (f ++ [.Contained top]) rest
      = reconstruct lbr rbr top (f :: rest) ++ [rbr] := by
  cases rest with
  | nil =>
    simp [reconstruct, frameFlat_append, jflat_contained, frameFlat]
  | cons g gs =>
    simp [reconstruct, frameFlat_append, jflat_contained, frameFlat]

theorem reconstruct_pushFree {α : Type} (lbr rbr : α)
    (top : List (Containerized (List α))) (rest : List (List (Containerized (List α)))) (t : α) :
    reconstruct lbr rbr (pushFree top t) rest = reconstruct lbr rbr top rest ++ [t] := by
  cases rest with
  | nil => simp [reconstruct, frameFlat_pushFree]
  | cons g gs => simp [reconstruct, frameFlat_pushFree]

theorem reconstruct_open {α : Type} (lbr rbr : α)
    (top : List (Containerized (List α))) (rest : List (List (Containerized (List α)))) :
    reconstruct lbr rbr [] (top :: rest) = reconstruct lbr rbr top rest ++ [lbr] := by
  simp [reconstruct, frameFlat]

/-- Invariant run of the containerizer loop: on balanced-enough input the
loop succeeds and the final frame rejoins to the stack's reconstruction
followed by the consumed input. -/
theorem contRun_balanced {α : Type} (lf rt : α → Bool) (lbr rbr : α) :
    ∀ (l : List α) (top : List (Containerized (List α)))
      (rest : List (List (Containerized (List α)))),
    (∀ t ∈ l, (lf t = true → t = lbr) ∧ (lf t = false → rt t = true → t = rbr)) →
    (∀ i ≤ l.length, closesCount lf rt (l.take i) ≤ opensCount lf (l.take i) + rest.length) →
    (closesCount lf rt l = opensCount lf l + rest.length) →
    ∃ f, contRun lf rt l top rest = .ok f ∧
      frameFlat lbr rbr f = reconstruct lbr rbr top rest ++ l := by
  intro l
  induction l with
  | nil =>
    intro top rest hitems hpre htot
    have hrest : rest = [] := by
      cases rest with
      | nil => rfl
      | cons g gs => simp [closesCount, opensCount] at htot
    subst hrest
    exact ⟨top, by simp [contRun], by simp [reconstruct]⟩
  | cons t l ih =>
    intro top rest hitems hpre htot
    have hmem := hitems t (List.mem_cons_self t l)
    cases hlf : lf t with
    | true =>
      have ht : t = lbr := hmem.1 hlf
      have hcl : ∀ m : List α, closesCount lf rt (t :: m) = closesCount lf rt m := by
        intro m; simp [closesCount, List.countP_cons, hlf]
      have hop : ∀ m : List α, opensCount lf (t :: m) = opensCount lf m + 1 := by
        intro m; simp [opensCount, List.countP_cons, hlf]
      obtain ⟨f, hrun, hflat⟩ := ih [] (top :: rest)
        (fun x hx => hitems x (List.mem_cons_of_mem t hx))
        (by
          intro i hi
          have := hpre (i + 1) (by simpa using Nat.succ_le_succ hi)
          rw [List.take_succ_cons, hcl, hop] at this
          simpa [List.length_cons] using by omega)
        (by
          have := htot
          rw [hcl, hop] at this
          simp [List.length_cons]
          omega)
      refine ⟨f, ?_, ?_⟩
      · rw [show contRun lf rt (t :: l) top rest = contRun lf rt l [] (top :: rest) by
          simp [contRun, hlf]]
        exact hrun
      · rw [hflat, reconstruct_open]
        simp [ht]
    | false =>
      cases hrt : rt t with
      | true =>
        have ht : t = rbr := hmem.2 hlf hrt
        have hcl : ∀ m : List α, closesCount lf rt (t :: m) = closesCount lf rt m + 1 := by
          intro m; simp [closesCount, List.countP_cons, hlf, hrt]
        have hop : ∀ m : List α, opensCount lf (t :: m) = opensCount lf m := by
          intro m; simp [opensCount, List.countP_cons, hlf]
        have hrestpos : 1 ≤ rest.length := by
          have := hpre 1 (by simp)
          simpa [List.take_succ_cons, closesCount, opensCount, List.countP_cons, hlf, hrt]
            using this
        cases rest with
        | nil => simp at hrestpos
        | cons f0 rest0 =>
          obtain ⟨f, hrun, hflat⟩ := ih (f0 ++ [.Contained top]) rest0
            (fun x hx => hitems x (List.mem_cons_of_mem t hx))
            (by
              intro i hi
              have := hpre (i + 1) (by simpa using Nat.succ_le_succ hi)
              rw [List.take_succ_cons, hcl, hop] at this
              simp [List.length_cons] at this ⊢
              omega)
            (by
              have := htot
              rw [hcl, hop] at this
              simp [List.length_cons] at this
              omega)
          refine ⟨f, ?_, ?_⟩
          · rw [show contRun lf rt (t :: l) top (f0 :: rest0)
                = contRun lf rt l (f0 ++ [.Contained top]) rest0 by
              simp [contRun, hlf, hrt]]
            exact hrun
          · rw [hflat, reconstruct_append_contained]
            simp [ht]
      | false =>
        have hcl : ∀ m : List α, closesCount lf rt (t :: m) = closesCount lf rt m := by
          intro m; simp [closesCount, List.countP_cons, hlf, hrt]
        have hop : ∀ m : List α, opensCount lf (t :: m) = opensCount lf m := by
          intro m; simp [opensCount, List.countP_cons, hlf]
        obtain ⟨f, hrun, hflat⟩ := ih (pushFree top t) rest
          (fun x hx => hitems x (List.mem_cons_of_mem t hx))
          (by
            intro i hi
            have := hpre (i + 1) (by simpa using Nat.succ_le_succ hi)
            rw [List.take_succ_cons, hcl, hop] at this
            exact this)
          (by
            have := htot
            rw [hcl, hop] at this
            exact this)
        refine ⟨f, ?_, ?_⟩
        · rw [show contRun lf rt (t :: l) top rest = contRun lf rt l (pushFree top t) rest by
            simp [contRun, hlf, hrt]]
          exact hrun
        · rw [hflat, reconstruct_pushFree]
          simp

theorem takeWhile_append_of_all {α : Type} (p : α → Bool) (pre : List α) (x : α) (post : List α)
    (h : ∀ c ∈ pre, p c = true) (hx : p x = false) :
    (pre ++ x :: post).takeWhile p = pre := by
  induction pre with
  | nil => simp [List.takeWhile, hx]
  | cons a l ih =>
    have ha := h a (List.mem_cons_self a l)
    simp [List.takeWhile, ha]
    exact ih (fun c hc => h c (List.mem_cons_of_mem a hc))

theorem dropWhile_append_of_all {α : Type} (p : α → Bool) (pre : List α) (x : α) (post : List α)
    (h : ∀ c ∈ pre, p c = true) (hx : p x = false) :
    (pre ++ x :: post).dropWhile p = x :: post := by
  induction pre with
  | nil => simp [List.dropWhile, hx]
  | cons a l ih =>
    have ha := h a (List.mem_cons_self a l)
    simp [List.dropWhile, ha]
    exact ih (fun c hc => h c (List.mem_cons_of_mem a hc))

theorem danceKey : ∀ sl : List Char, sl.contains '=' = true →
    (sl.take (sl.findIdx (· == '=') + 1)).dropLast = sl.takeWhile (fun c => !(c == '=')) := by
  intro sl
  induction sl with
  | nil => intro h; simp at h
  | cons c sl ih =>
    intro h
    by_cases hc : c = '='
    · subst hc
      simp [List.findIdx_cons, List.takeWhile]
    · have hcb : (c == '=') = false := by
        exact decide_eq_false hc
      have hcb2 : (('=' : Char) == c) = false := decide_eq_false (fun he => hc he.symm)
      have hcont : sl.contains '=' = true := by
        simp only [List.contains_cons, hcb2, Bool.false_or] at h
        exact h
      have hne : sl ≠ [] := by
        intro he; rw [he] at hcont; simp at hcont
      have htk : (sl.take (sl.findIdx (· == '=') + 1)) ≠ [] := by
        simp [List.take_eq_nil_iff, hne]
      simp [List.findIdx_cons, hcb, List.takeWhile, List.take_succ_cons,
        List.dropLast_cons_of_ne_nil htk, ih hcont]

theorem danceVal : ∀ sl : List Char, sl.contains '=' = true →
    sl.drop (sl.findIdx (· == '=') + 1) = (sl.dropWhile (fun c => !(c == '='))).tail := by
  intro sl
  induction sl with
  | nil => intro h; simp at h
  | cons c sl ih =>
    intro h
    by_cases hc : c = '='
    · subst hc
      simp [List.findIdx_cons, List.dropWhile]
    · have hcb : (c == '=') = false := decide_eq_false hc
      have hcb2 : (('=' : Char) == c) = false := decide_eq_false (fun he => hc he.symm)
      have hcont : sl.contains '=' = true := by
        simp only [List.contains_cons, hcb2, Bool.false_or] at h
        exact h
      simp [List.findIdx_cons, hcb, List.dropWhile, ih hcont]

/-! ## Claim theorems -/

/-- Claim C1: the claim states that `parse` returns typed `Err` values
(`UnmatchedCloseDelimiter`, `UnmatchedOpenDelimiter`,
`MalformedMetadataLine`) and never panics. The code instead panics: this
theorem evaluates the embedding (panics modelled as error values) at the
failing inputs — an unmatched `]` hits `expect("Unmatched right
delimeter")`, an unmatched `[` hits `panic!("Unmatched left delimeter")`,
and a malformed metadata line hits `expect("Found Metadata without
value")`; the source's `ParseCommandErr` has no such variants at all. -/
theorem parse_panics_on_unmatched_and_malformed :
    parse "]".toList = .error .panicUnmatchedRightDelimiter
    ∧ parse "[".toList = .error .panicUnmatchedLeftDelimiter
    ∧ parse "!x".toList = .error .panicMetadataNoValue
    ∧ parse "! ".toList = .error .panicMetadataNoValue :=
  ⟨rfl, rfl, rfl, rfl⟩

/-- Claim C2: for every item sequence balanced with respect to the
open/close predicates (no prefix with more closes than opens, equal totals
overall), and whose opening items are all the bracket item `lbr` and
closing items all `rbr`, containerizing succeeds and rejoining each
resulting tree with `join` using those bracket items, concatenated in
order, reproduces the original sequence exactly. -/
theorem containerize_join_roundtrip {α : Type} (lf rt : α → Bool) (lbr rbr : α) (l : List α)
    (hitems : ∀ t ∈ l, (lf t = true → t = lbr) ∧ (lf t = false → rt t = true → t = rbr))
    (hpre : ∀ i ≤ l.length, closesCount lf rt (l.take i) ≤ opensCount lf (l.take i))
    (htot : closesCount lf rt l = opensCount lf l) :
    ∃ v, containerize lf rt l = .ok v ∧
      (v.map (fun c => (c.join [lbr] [rbr]).flatten)).flatten = l := by
  obtain ⟨f, hrun, hflat⟩ := contRun_balanced lf rt lbr rbr l [] []
    hitems (by simpa using hpre) (by simpa using htot)
  exact ⟨f, hrun, by simpa [frameFlat, reconstruct] using hflat⟩

/-- Claim C2, witness: the round trip at the concrete balanced input
`"a[b]c"` with `[`/`]` as delimiters. -/
theorem containerize_join_roundtrip_witness :
    ∃ v, containerize (· == '[') (· == ']') "a[b]c".toList = .ok v ∧
      (v.map (fun c => (c.join ['['] [']']).flatten)).flatten = "a[b]c".toList :=
  containerize_join_roundtrip (· == '[') (· == ']') '[' ']' "a[b]c".toList
    (by decide) (by decide) (by decide)

/-- Claim C3: the claim states that with neither `exclude_name` nor
`include_name` given, no directory entry is skipped on name grounds. In
the code the include check is `include_by_name.iter().all(|p| !matches)`,
which is vacuously `true` for the empty include list, so the skip
condition holds for every entry: the code skips every file. -/
theorem forfiles_empty_include_skips_all :
    forfilesSkip [] [] "a.txt".toList = true := rfl

/-- Claim C4: the claim states that a `%run(` with no closing paren is
left byte-for-byte unchanged with a diagnostic and never panics. In the
code `parse_args` runs to the end of input, the computed replacement end
index is `input.length + 1`, and `replace_range` panics (out of bounds) —
for every process function and any remaining loop fuel. -/
theorem basic_command_missing_close_panics :
    ∀ (proc : List Char → Except (List Char) (List Char)) (fuel : Nat),
      basicReplaceAll "%run".toList proc (fuel + 1) "%run(".toList
        = .error .panicReplaceRangeOOB :=
  fun _ _ => rfl

/-- Claim C5, counterexample: the claim states that an escaped `\#` keeps
the `#` as a literal character in the body. On `"a \# still text\nb"` the
code keeps the backslash and the following text but elides the `#` itself
(the segments of `split('#')` are concatenated without the separators):
the resulting body contains no `#` at all. -/
theorem preprocess_escaped_hash_not_kept :
    preprocess "a \\# still text\nb".toList = .ok ([], "a \\ still text\nb".toList)
    ∧ '#' ∉ "a \\ still text\nb".toList :=
  ⟨rfl, by decide⟩

/-- Claim C5, amended: an unescaped `#` truncates the line at that point
(the first body line of `parse("a # comment\nb")` is `"a "`), while an
escaped `\#` prevents the truncation and scanning continues — but the `#`
character itself is removed from the body (the preceding backslash is
kept). -/
theorem preprocess_comment_stripping :
    preprocess "a # comment\nb".toList = .ok ([], "a \nb".toList)
    ∧ preprocess "a \\# still text\nb".toList = .ok ([], "a \\ still text\nb".toList) :=
  ⟨rfl, rfl⟩

/-- Claim C6, counterexample: the claim states that
`parse("! title My Page\nHello")` yields metadata `{"title": "My Page"}`.
The code takes the key to be the text between `!` and the first
whitespace — here the empty string — and the value to be everything from
the first non-whitespace after it: the metadata is `{"": "title My
Page"}`, not `{"title": "My Page"}`. -/
theorem parse_space_after_bang_empty_key :
    parse "! title My Page\nHello".toList
      = .ok ⟨[(([] : List Char), "title My Page".toList)], [.Text "Hello".toList]⟩
    ∧ [(([] : List Char), "title My Page".toList)]
        ≠ [("title".toList, "My Page".toList)] :=
  ⟨rfl, by decide⟩

/-- Claim C6, amended: the metadata syntax is `!key value` with no space
between `!` and the key: `parse("!title My Page\nHello")` succeeds with
metadata exactly `{"title": "My Page"}` and body nodes exactly
`[Text("Hello")]`; with a space after the `!` the key is empty and the
value is `"title My Page"`. -/
theorem parse_metadata_example :
    parse "!title My Page\nHello".toList
      = .ok ⟨[("title".toList, "My Page".toList)], [.Text "Hello".toList]⟩
    ∧ parse "! title My Page\nHello".toList
      = .ok ⟨[(([] : List Char), "title My Page".toList)], [.Text "Hello".toList]⟩ :=
  ⟨rfl, rfl⟩

/-- Claim C7, counterexample: the claim states the head is split on its
last `@` with the text after the `@` the backend id and the text before it
the command name. The code does the opposite on the first `@`: for
`"be@cmd"` it yields backend `Some("be")` and name `"cmd"` (not backend
`Some("cmd")`, name `"be"`), and for `"a@b@c"` it splits at the first `@`,
yielding backend `Some("a")` and name `"b@c"`. -/
theorem cmdBackendSplit_counterexample :
    cmdBackendSplit "be@cmd".toList = (some "be".toList, "cmd".toList)
    ∧ cmdBackendSplit "a@b@c".toList = (some "a".toList, "b@c".toList)
    ∧ (some "be".toList, "cmd".toList)
        ≠ ((some "cmd".toList, "be".toList) : Option (List Char) × List Char) :=
  ⟨rfl, rfl, by decide⟩

/-- Claim C7, amended: the command head is split on its first `@`: the
text before that `@` is the backend id and the text after it is the
command name; a head with no `@` gives backend `None` and the whole head
as the name. -/
theorem cmdBackendSplit_first_at (pre post l : List Char) (h1 : '@' ∉ pre) (h2 : '@' ∉ l) :
    cmdBackendSplit (pre ++ '@' :: post) = (some pre, post)
      ∧ cmdBackendSplit l = (none, l) := by
  constructor
  · have hall : ∀ c ∈ pre, (!(c == '@')) = true := by
      intro c hc
      simp only [Bool.not_eq_true']
      exact decide_eq_false (fun he => h1 (he ▸ hc))
    have hx : (!(('@' : Char) == '@')) = false := by decide
    simp [cmdBackendSplit, splitFirstP,
      takeWhile_append_of_all _ pre '@' post hall hx,
      dropWhile_append_of_all _ pre '@' post hall hx]
  · have hall : ∀ c ∈ l, (!(c == '@')) = true := by
      intro c hc
      simp only [Bool.not_eq_true']
      exact decide_eq_false (fun he => h2 (he ▸ hc))
    have htw : l.takeWhile (fun c => !(c == '@')) = l := List.takeWhile_eq_self_iff.mpr hall
    have hdw : l.dropWhile (fun c => !(c == '@')) = [] := List.dropWhile_eq_nil_iff.mpr hall
    simp [cmdBackendSplit, splitFirstP, htw, hdw]

/-- Claim C7, witness: the amended split at the concrete heads `"be@cmd"`
and `"plain"`. -/
theorem cmdBackendSplit_first_at_witness :
    cmdBackendSplit ("be".toList ++ '@' :: "cmd".toList) = (some "be".toList, "cmd".toList)
      ∧ cmdBackendSplit "plain".toList = (none, "plain".toList) :=
  cmdBackendSplit_first_at "be".toList "cmd".toList "plain".toList (by decide) (by decide)

/-- Claim C8, counterexample: the claim states that both the key and the
value are trimmed of surrounding whitespace on both sides. The code trims
the value only at the start (`trim_start`): `parse_attrs("k = v ")` yields
the value `"v "`, not `"v"`. -/
theorem parseAttrs_value_not_right_trimmed :
    parseAttrs "k = v ".toList = [("k".toList, "v ".toList)]
    ∧ parseAttrs "k = v ".toList ≠ [("k".toList, "v".toList)] :=
  ⟨rfl, by decide⟩

/-- Claim C8, amended: attribute parsing never fails: for every attribute
text, it is split on unescaped `;`, every entry lacking `=` is silently
dropped, the value of a kept entry is everything after the first `=` on
that entry (possibly empty), the key is trimmed of whitespace on both
sides, and the value is trimmed of leading whitespace only. (The
characterisation below re-expresses the source's
`find`/`split_off`/`pop` index manipulation as a clean first-`=` split.) -/
theorem parseAttrs_spec (s : List Char) :
    parseAttrs s = (splitNotEscaped ';' s).filterMap (fun sl =>
      match splitFirstP (· == '=') sl with
      | (_, none) => none
      | (k, some v) => some (trimBoth k, trimStartL v)) := by
  unfold parseAttrs
  congr 1
  funext sl
  by_cases h : sl.contains '=' = true
  · have hmem : '=' ∈ sl := by simpa using h
    obtain ⟨e, rest, hd⟩ : ∃ e rest, sl.dropWhile (fun c => !(c == '=')) = e :: rest := by
      cases hdw : sl.dropWhile (fun c => !(c == '=')) with
      | nil =>
        exfalso
        have := List.dropWhile_eq_nil_iff.mp hdw '=' hmem
        simp at this
      | cons e rest => exact ⟨e, rest, rfl⟩
    have hif : (if sl.findIdx (· == '=') + 1 = sl.length then []
        else sl.drop (sl.findIdx (· == '=') + 1)) = sl.drop (sl.findIdx (· == '=') + 1) := by
      split
      · next heq => rw [heq, List.drop_length]
      · rfl
    have hr : sl.drop (sl.findIdx (· == '=') + 1) = rest := by
      rw [danceVal sl h, hd]
      rfl
    rw [hr] at hif
    simp only [h, if_true, splitFirstP, hd, danceKey sl h, hr, hif]
  · have hnone : sl.dropWhile (fun c => !(c == '=')) = [] := by
      apply List.dropWhile_eq_nil_iff.mpr
      intro x hx
      simp only [Bool.not_eq_true']
      apply decide_eq_false
      intro he
      exact h (by simpa using he ▸ hx)
    simp only [h, if_false, splitFirstP, hnone, Bool.false_eq_true]

/-- Claim C9: the escape-aware scanner pairs each escape-indicator item
with the following item as `(escaped = true, that item)`; an indicator
that is the last item of the input is emitted as `(escaped = false,
indicator)` — a trailing escape is neither an error nor dropped. -/
theorem autoEscape_pairs {α : Type} (p : α → Bool) (e : α) (he : p e = true) :
    (∀ y ys, autoEscape p (e :: y :: ys) = (true, y) :: autoEscape p ys)
    ∧ autoEscape p [e] = [(false, e)] := by
  constructor
  · intro y ys
    simp [autoEscape, he]
  · simp [autoEscape]

/-- Claim C9, witness: the scanner at the concrete indicator `\` with a
following character and at the input ending in the indicator. -/
theorem autoEscape_pairs_witness :
    autoEscape (fun c => c == '\\') ('\\' :: 'a' :: ['b'])
        = (true, 'a') :: autoEscape (fun c => c == '\\') ['b']
    ∧ autoEscape (fun c => c == '\\') ['\\'] = [(false, '\\')] :=
  ⟨(autoEscape_pairs (fun c => c == '\\') '\\' (by decide)).1 'a' ['b'],
    (autoEscape_pairs (fun c => c == '\\') '\\' (by decide)).2⟩

/-- Claim C10: variable substitution re-scans replacement text: one
iteration of `var::replace_all` splices the value of `x` into the text and
recurses on the entire resulting text (first conjunct — the loop re-runs
`find` on the spliced text), so a value containing a `%{y}` reference is
itself expanded with the same mapping: substituting in `"%{x}"` with
`x = "%{y}"`, `y = "z"` produces `"z"`, not the single-pass result
`"%{y}"` (second conjunct). -/
theorem var_substitution_rescans :
    (∀ fuel : Nat,
      varReplaceAll [(['x'], ['%', '{', 'y', '}']), (['y'], ['z'])] (fuel + 1)
          ['%', '{', 'x', '}']
        = varReplaceAll [(['x'], ['%', '{', 'y', '}']), (['y'], ['z'])] fuel
          ['%', '{', 'y', '}'])
    ∧ varReplaceAll [(['x'], ['%', '{', 'y', '}']), (['y'], ['z'])] 4 ['%', '{', 'x', '}']
      = .ok ['z'] :=
  ⟨fun _ => rfl, rfl⟩
